import Mathlib

/-
Verification of the `addons::CircularBuffer` container
(repository G0lDenis/circular-buffer, file addons/circularbuffer.cpp).

The buffer stores four raw pointers: `start`, `finish`, `start_of_storage`
and `end_of_storage`, all into one allocation of `capacity` slots.  The
shallow embedding represents each pointer as its offset from
`start_of_storage`, a natural number in `[0, cap]`, where the value `cap`
is the offset of `end_of_storage` (the reserved "full"/one-past sentinel).
The storage block itself is a `List α` of length `cap`; a slot that C++
leaves uninitialized is simply whatever value the list holds there.

Throwing operations (`resize`, `reserve` throw `std::length_error`) are
embedded as `Except Unit`, with `.error ()` standing for the exception and
`.ok` for a normal return; the C++ functions throw before mutating, so no
state accompanies the error.  `max_size()` is machine dependent and is
passed as an explicit parameter `M`.
-/

namespace CircBuf

/-- The observable state of one `addons::CircularBuffer<α>`:
`cap = end_of_storage - start_of_storage`, `start` and `finish` are the
offsets of the `start` / `finish` pointers from `start_of_storage`, and
`data` is the content of the storage block (length `cap`). -/
structure CB (α : Type) where
  cap : Nat
  start : Nat
  finish : Nat
  data : List α
deriving DecidableEq, Repr

variable {α : Type}

/-- `CircularBuffer::size()`:
`start <= finish && finish != end_of_storage ? finish - start :
 finish != end_of_storage ? (finish - start_of_storage) + (end_of_storage - start) :
 end_of_storage - start_of_storage`. -/
def size (b : CB α) : Nat :=
  if b.start ≤ b.finish ∧ b.finish ≠ b.cap then b.finish - b.start
  else if b.finish ≠ b.cap then b.finish + (b.cap - b.start)
  else b.cap

/-- `CircularBuffer::capacity()`: `end_of_storage - start_of_storage`. -/
def capacity (b : CB α) : Nat := b.cap

/-- `CircularBuffer::begin()` returns `iterator(start, *this)`; this is the
iterator's stored offset. -/
def beginPtr (b : CB α) : Nat := b.start

/-- `CircularBuffer::end()` returns `iterator(finish, *this)`. -/
def endPtr (b : CB α) : Nat := b.finish

/-- `CircularBuffer::cbegin()` returns `const_iterator(start, *this)`. -/
def cbeginPtr (b : CB α) : Nat := b.start

/-- `CircularBuffer::cend()` returns `const_iterator(start, *this)`
(verbatim from the source: the body is identical to `cbegin`). -/
def cendPtr (b : CB α) : Nat := b.start

/-- `CBuffIterator::operator++`:
`if (++stored_ptr == buffer->start) stored_ptr = buffer->end_of_storage;
 else if (stored_ptr == buffer->end_of_storage && buffer->start != buffer->start_of_storage)
   stored_ptr = buffer->start_of_storage;`. -/
def itNext (b : CB α) (p : Nat) : Nat :=
  if p + 1 = b.start then b.cap
  else if p + 1 = b.cap ∧ b.start ≠ 0 then 0
  else p + 1

/-- `CBuffIterator::operator--`:
`if (stored_ptr == buffer->start) stored_ptr = buffer->end_of_storage;
 else { if (stored_ptr == buffer->end_of_storage) stored_ptr = buffer->start;
        if (stored_ptr == buffer->start_of_storage) stored_ptr = buffer->end_of_storage - 1;
        else stored_ptr--; }`. -/
def itPrev (b : CB α) (p : Nat) : Nat :=
  if p = b.start then b.cap
  else
    let q := if p = b.cap then b.start else p
    if q = 0 then b.cap - 1 else q - 1

/-- `operator-(const CBuffIterator& _left, const CBuffIterator& _right)`:
the three-branch wrap rule of the source, with `l`, `r` the two stored
offsets (both iterators referencing the same buffer `b`).  The result is a
`ptrdiff_t`, hence `Int`. -/
def itSub (b : CB α) (l r : Nat) : Int :=
  if b.start ≤ b.finish ∨ (l ≤ b.finish ∧ r ≤ b.finish) ∨ (b.start ≤ l ∧ b.start ≤ r) then
    (l : Int) - (r : Int)
  else if l ≤ r then ((b.cap : Int) - (r : Int)) + (l : Int)
  else ((b.cap : Int) - (l : Int)) + (r : Int)

/-- `CBuffIterator::operator-=(difference_type _offset)` for a nonnegative
offset `k` (the only use sites below pass nonnegative offsets):
`if (_offset) { _offset %= size();
  if (stored_ptr == eos) { stored_ptr = start; if (stored_ptr == sos)
    stored_ptr = eos - 1; else stored_ptr = start - 1; _offset--; }
  if (stored_ptr - _offset < sos) stored_ptr = eos - _offset + (stored_ptr - sos);
  else stored_ptr -= _offset; }`.
The decremented offset may become `-1`, so it is tracked as an `Int`. -/
def itSubOff (b : CB α) (p k : Nat) : Nat :=
  if k = 0 then p
  else
    let r := k % size b
    let p1 : Nat := if p = b.cap then (if b.start = 0 then b.cap - 1 else b.start - 1) else p
    let o1 : Int := if p = b.cap then (r : Int) - 1 else (r : Int)
    if (p1 : Int) - o1 < 0 then ((b.cap : Int) - o1 + (p1 : Int)).toNat
    else ((p1 : Int) - o1).toNat

/-- `CBuffIterator::operator+=(difference_type _offset)` for a nonnegative
offset `k`:
`if (_offset) { _offset %= size();
  if (stored_ptr + _offset >= eos) { stored_ptr = sos + _offset - (eos - stored_ptr);
    if (stored_ptr == start) stored_ptr = eos; }
  else if (stored_ptr + _offset == start) stored_ptr = eos;
  else stored_ptr += _offset; }`. -/
def itAddOff (b : CB α) (p k : Nat) : Nat :=
  if k = 0 then p
  else
    let r := k % size b
    if b.cap ≤ p + r then
      let q := p + r - b.cap
      if q = b.start then b.cap else q
    else if p + r = b.start then b.cap
    else p + r

section WithDefault

variable [Inhabited α]

/-- `CBuffIterator::at(difference_type _offset)` reached through
`CircularBuffer::at` (which calls `begin().at(_offset)`, so the stored
pointer is `start`):
`_offset = _offset % buffer->size();
 if (stored_ptr + _offset >= buffer->end_of_storage)
   return *(buffer->start_of_storage + (stored_ptr + _offset - buffer->end_of_storage));
 return stored_ptr[_offset];`
There is no bounds check and no throw in the source. -/
def atIdx (b : CB α) (k : Nat) : α :=
  let off := k % size b
  if b.cap ≤ b.start + off then b.data.getD (b.start + off - b.cap) default
  else b.data.getD (b.start + off) default

/-- `push_back(const value_type& _value)`:
`if (finish == end_of_storage) { *begin() = _value; start = (++begin()).get_ptr(); }
 else { finish++; *(--end()) = _value; }`
In the second branch `--end()` is evaluated after `finish++`, but
`operator--` only reads `start`, `start_of_storage`, `end_of_storage`. -/
def push_back (b : CB α) (v : α) : CB α :=
  if b.finish = b.cap then
    { b with data := b.data.set b.start v, start := itNext b b.start }
  else
    { b with finish := b.finish + 1, data := b.data.set (itPrev b (b.finish + 1)) v }

/-- `pop_back()`: `if (!empty()) { std::_Destroy((--end()).get_ptr());
finish = (--end()).get_ptr(); }` — destruction does not change the stored
bytes in the model, only `finish` moves. -/
def pop_back (b : CB α) : CB α :=
  if b.start = b.finish then b
  else { b with finish := itPrev b b.finish }

/-- `pop_front()`: `if (!empty()) { std::_Destroy(start);
start = (++begin()).get_ptr(); }`. -/
def pop_front (b : CB α) : CB α :=
  if b.start = b.finish then b
  else { b with start := itNext b b.start }

/-- One copying loop of `assign(InputIterator, InputIterator)`:
`for (; _first != _last && cur != end_it; ++cur, ++_first) *cur = *_first;`
starting at iterator offset `p`, with `end_it = end()` (offset `b.finish`).
Returns the updated storage together with the unconsumed source suffix. -/
def assignLoop (b : CB α) : List α → Nat → List α → List α × List α
  | [], _, d => (d, [])
  | v :: rest, p, d =>
      if p = b.finish then (d, v :: rest)
      else assignLoop b rest (itNext b p) (d.set p v)

/-- `assign(InputIterator _first, InputIterator _last)` with the source
range given as a list:
`if (!empty()) { cur = begin(); end_it = end(); n = _last - _first;
  int_part = n / size();
  if (int_part) { for (_first += (int_part - 1) * size(); ...) *cur = *_first; }
  cur = begin(); for (; _first != _last && cur != end_it; ...) *cur = *_first; }`. -/
def assign (b : CB α) (src : List α) : CB α :=
  if b.start = b.finish then b
  else
    let ip := src.length / size b
    let step1 :=
      if ip ≠ 0 then assignLoop b (src.drop ((ip - 1) * size b)) b.start b.data
      else (b.data, src)
    let step2 := assignLoop b step1.2 b.start step1.1
    { b with data := step2.1 }

/-- `std::__uninitialized_default_n_a(first, n, alloc)` /
`std::__uninitialized_fill_n_a(first, n, value, alloc)` applied to a
`CBuffIterator`: construct `k` copies of `v` starting at offset `p`,
advancing with `operator++` after each construction; returns the updated
storage and the final iterator offset (the function's return value). -/
def fillFrom (b : CB α) : Nat → Nat → α → List α → List α × Nat
  | p, 0, _, d => (d, p)
  | p, k + 1, v, d => fillFrom b (itNext b p) k v (d.set p v)

/-- The element walk of `std::__relocate_a(first, last, dest)` over
`CBuffIterator`s: read the slot at offset `p`, advance with `operator++`,
stop on reaching offset `tgt`.  The C++ loop is unbounded; the model uses
fuel (`cap + 1` at every call site, enough for any in-bounds window). -/
def walkUntil (b : CB α) : Nat → Nat → Nat → List α
  | _, _, 0 => []
  | p, tgt, fuel + 1 =>
      if p = tgt then [] else b.data.getD p default :: walkUntil b (itNext b p) tgt fuel

/-- `_erase_ending(size_type _n)`:
`new_ending = end() - _n; std::_Destroy(new_ending, end()); finish = new_ending.get_ptr();`
(`end() - _n` is `operator-(iterator, difference_type)`, i.e. `operator-=`). -/
def eraseEnding (b : CB α) (k : Nat) : CB α :=
  { b with finish := itSubOff b b.finish k }

/-- `_reallocate_storage_default(size_type _new_size)`: allocate a fresh
block of `n` slots; for `n >= size()` default-construct slots `size..n-1`,
relocate `begin()..end()` to the block's head and set
`finish = new_start + size()` (the relocation's return value); for
`n < size()` relocate only `begin()..begin()+n` and set `finish = new_start + n`.
Either way `start = start_of_storage = new_start`, `end_of_storage = new_start + n`. -/
def reallocDefault (b : CB α) (n : Nat) : CB α :=
  if size b ≤ n then
    { cap := n, start := 0, finish := size b,
      data := walkUntil b b.start b.finish (b.cap + 1) ++ List.replicate (n - size b) default }
  else
    { cap := n, start := 0, finish := n,
      data := walkUntil b b.start (itAddOff b b.start n) (b.cap + 1) }

/-- `_reallocate_storage_filled(size_type _new_size, const value_type& _value)`:
as `_reallocate_storage_default` but the fresh tail holds copies of `v` and
in the `n >= size()` branch `finish = end_of_storage = new_start + n`. -/
def reallocFilled (b : CB α) (n : Nat) (v : α) : CB α :=
  if size b ≤ n then
    { cap := n, start := 0, finish := n,
      data := walkUntil b b.start b.finish (b.cap + 1) ++ List.replicate (n - size b) v }
  else
    { cap := n, start := 0, finish := n,
      data := walkUntil b b.start (itAddOff b b.start n) (b.cap + 1) }

/-- `resize(size_type _new_size)` with `max_size()` abstracted as `M`:
`if (_new_size > max_size()) throw std::length_error(...);
 if (_new_size > size()) {
   if (_new_size > capacity()) _reallocate_storage_default(_new_size);
   else finish = std::__uninitialized_default_n_a(end(), _new_size - size(), alloc).get_ptr();
 } else if (_new_size) _erase_ending(size() - _new_size);`. -/
def resize (M : Nat) (b : CB α) (n : Nat) : Except Unit (CB α) :=
  if M < n then .error ()
  else .ok <|
    if size b < n then
      if b.cap < n then reallocDefault b n
      else
        let r := fillFrom b b.finish (n - size b) default b.data
        { b with data := r.1, finish := r.2 }
    else if n ≠ 0 then eraseEnding b (size b - n)
    else b

/-- `resize(size_type _new_size, const value_type& _value)`:
as `resize` but filling with `_value`, reallocating with
`_reallocate_storage_filled`, and with an unguarded shrink branch
(`else _erase_ending(size() - _new_size);`). -/
def resizeFill (M : Nat) (b : CB α) (n : Nat) (v : α) : Except Unit (CB α) :=
  if M < n then .error ()
  else .ok <|
    if size b < n then
      if b.cap < n then reallocFilled b n v
      else
        let r := fillFrom b b.finish (n - size b) v b.data
        { b with data := r.1, finish := r.2 }
    else eraseEnding b (size b - n)

/-- `reserve(size_type _n)`:
`if (_n > max_size()) throw std::length_error(...);
 if (_n > capacity()) _reallocate_storage_default(_n);`. -/
def reserve (M : Nat) (b : CB α) (n : Nat) : Except Unit (CB α) :=
  if M < n then .error ()
  else if b.cap < n then .ok (reallocDefault b n)
  else .ok b

end WithDefault

/-- The structural well-formedness of a buffer state: the storage list has
exactly `capacity` slots and both markers lie inside
`[start_of_storage, end_of_storage]`, with `start` a dereferenceable slot
whenever the capacity is nonzero (§3 of the design: both markers are
"always within [start_of_storage, end_of_storage]"). -/
def Valid (b : CB α) : Prop :=
  b.data.length = b.cap ∧ b.start ≤ b.cap ∧ b.finish ≤ b.cap ∧ (0 < b.cap → b.start < b.cap)

instance (b : CB α) : Decidable (Valid b) := by
  unfold Valid; infer_instance

/-- The logical content of the window: element `j` lives in slot
`(start + j) % cap` for `j < size`. -/
def logical [Inhabited α] (b : CB α) : List α :=
  (List.range (size b)).map (fun j => b.data.getD ((b.start + j) % b.cap) default)

/-- The offset reached from `begin()` after `j` forward steps, for
`0 ≤ j ≤ cap`: the slot `(start + j) % cap`, except that `j = cap` lands on
the `end_of_storage` sentinel. -/
def ptrOf (b : CB α) (j : Nat) : Nat :=
  if j = b.cap then b.cap else (b.start + j) % b.cap

/-- The logical position of slot `i` (inverse of `ptrOf` on slots). -/
def offsetOf (b : CB α) (i : Nat) : Nat :=
  (i + b.cap - b.start) % b.cap

/-- A full buffer of capacity 3 holding `{1,2,1}` as built by the
initializer-list constructor (`start = start_of_storage`,
`finish = end_of_storage`). -/
def ex121 : CB Int := ⟨3, 0, 3, [1, 2, 1]⟩

/-- The buffer obtained from `ex121` by `push_back(0)`: full, front offset 1. -/
def exFull1 : CB Int := ⟨3, 1, 3, [0, 2, 1]⟩

/-- A capacity-3 buffer of size 1 with `start = 1`, `finish = 2` (reached
from an empty capacity-3 buffer by `push_back(10); push_back(20); pop_front()`). -/
def exMid : CB Int := ⟨3, 1, 2, [10, 20, 0]⟩

/-- A capacity-3 buffer of size 2 holding `10, 20` contiguously. -/
def exPart : CB Int := ⟨3, 0, 2, [10, 20, 0]⟩

/-- A capacity-2 buffer of size 1 holding `7`. -/
def exGrow : CB Int := ⟨2, 0, 1, [7, 6]⟩

-- ======================================================================
-- Supporting lemmas
-- ======================================================================

theorem size_le_cap (b : CB α) (h1 : b.start ≤ b.cap) (h2 : b.finish ≤ b.cap) :
    size b ≤ b.cap := by
  unfold size
  split_ifs <;> omega

/-- The three mutually exclusive shapes of the window encoding. -/
theorem size_spec (b : CB α) :
    (b.start ≤ b.finish ∧ b.finish ≠ b.cap ∧ size b = b.finish - b.start) ∨
    (b.finish < b.start ∧ b.finish ≠ b.cap ∧ size b = b.finish + (b.cap - b.start)) ∨
    (b.finish = b.cap ∧ size b = b.cap) := by
  unfold size
  split_ifs with hA hB
  · exact Or.inl ⟨hA.1, hA.2, rfl⟩
  · refine Or.inr (Or.inl ⟨?_, hB, rfl⟩)
    rcases Nat.lt_or_ge b.finish b.start with h | h
    · exact h
    · exact absurd ⟨h, hB⟩ hA
  · refine Or.inr (Or.inr ⟨?_, rfl⟩)
    by_contra hc
    exact (by tauto : False)

theorem size_pos_of_ne (b : CB α) (h : Valid b) (hne : b.start ≠ b.finish) :
    0 < size b := by
  obtain ⟨-, h1, h2, h3⟩ := h
  rcases size_spec b with ⟨c1, c2, c3⟩ | ⟨c1, c2, c3⟩ | ⟨c1, c2⟩ <;>
    [skip; skip; (by_cases hc : b.cap = 0)] <;> omega

theorem mod_two_cases {a c : Nat} (h : a < 2 * c) :
    a % c = if a < c then a else a - c := by
  split_ifs with h1
  · exact Nat.mod_eq_of_lt h1
  · have h0 : 0 < c := by omega
    conv_lhs => rw [show a = a - c + c by omega]
    rw [Nat.add_mod_right, Nat.mod_eq_of_lt (by omega)]

theorem ptrOf_eq (b : CB α) (hs : b.start < b.cap) {j : Nat} (hj : j < b.cap) :
    ptrOf b j = if b.start + j < b.cap then b.start + j else b.start + j - b.cap := by
  unfold ptrOf
  rw [if_neg (by omega : ¬ j = b.cap), mod_two_cases (by omega)]

theorem ptrOf_lt (b : CB α) (hs : b.start < b.cap) {j : Nat} (hj : j < b.cap) :
    ptrOf b j < b.cap := by
  rw [ptrOf_eq b hs hj]
  split_ifs <;> omega

/-- One `operator++` step along the logical walk: from the offset of
logical position `j` it reaches the offset of logical position `j + 1`
(which is the `end_of_storage` sentinel when `j + 1 = cap`). -/
theorem itNext_ptrOf (b : CB α) (h : Valid b) {j : Nat} (hj : j < b.cap) :
    itNext b (ptrOf b j) = ptrOf b (j + 1) := by
  obtain ⟨-, -, -, h3⟩ := h
  have hs : b.start < b.cap := h3 (by omega)
  have e1 := ptrOf_eq b hs hj
  have e2 : ptrOf b (j + 1) = if j + 1 = b.cap then b.cap else
      if b.start + (j + 1) < b.cap then b.start + (j + 1) else b.start + (j + 1) - b.cap := by
    by_cases hj1 : j + 1 = b.cap
    · simp [ptrOf, hj1]
    · rw [if_neg hj1, ptrOf_eq b hs (by omega)]
  rw [e1, e2]
  unfold itNext
  split_ifs <;> omega

/-- `finish` is the offset of logical position `size` (the `end()` cursor). -/
theorem finish_eq_ptrOf (b : CB α) (h : Valid b) : b.finish = ptrOf b (size b) := by
  obtain ⟨-, h1, h2, h3⟩ := h
  rcases size_spec b with ⟨c1, c2, c3⟩ | ⟨c1, c2, c3⟩ | ⟨c1, c2⟩
  · have hs : b.start < b.cap := h3 (by omega)
    rw [ptrOf_eq b hs (by omega)]
    split_ifs <;> omega
  · have hs : b.start < b.cap := h3 (by omega)
    rw [ptrOf_eq b hs (by omega)]
    split_ifs <;> omega
  · unfold ptrOf
    rw [if_pos c2, c1]

theorem ptrOf_inj (b : CB α) (h : Valid b) {j k : Nat} (hj : j ≤ b.cap) (hk : k ≤ b.cap)
    (he : ptrOf b j = ptrOf b k) : j = k := by
  obtain ⟨-, -, -, h3⟩ := h
  unfold ptrOf at he
  by_cases hj1 : j = b.cap <;> by_cases hk1 : k = b.cap
  · omega
  · have hs : b.start < b.cap := h3 (by omega)
    rw [if_pos hj1, if_neg hk1, mod_two_cases (by omega)] at he
    split_ifs at he <;> omega
  · have hs : b.start < b.cap := h3 (by omega)
    rw [if_neg hj1, if_pos hk1, mod_two_cases (by omega)] at he
    split_ifs at he <;> omega
  · have hs : b.start < b.cap := h3 (by omega)
    rw [if_neg hj1, if_neg hk1, mod_two_cases (by omega), mod_two_cases (by omega)] at he
    split_ifs at he <;> omega

/-- A cursor strictly inside the window never coincides with `end()`. -/
theorem ptrOf_ne_finish (b : CB α) (h : Valid b) {j : Nat} (hj : j < size b) :
    ptrOf b j ≠ b.finish := by
  have hsz : size b ≤ b.cap := size_le_cap b h.2.1 h.2.2.1
  intro he
  rw [finish_eq_ptrOf b h] at he
  have := ptrOf_inj b h (by omega) (by omega) he
  omega

/-- Updating `finish` to the offset of logical position `n` makes the
window have size exactly `n`. -/
theorem size_finish_ptrOf (b : CB α) (h : Valid b) {n : Nat} (hn : n ≤ b.cap) :
    size { b with finish := ptrOf b n } = n := by
  obtain ⟨-, h1, -, h3⟩ := h
  by_cases hc : n = b.cap
  · unfold ptrOf size
    simp only [hc, if_pos rfl]
    split_ifs <;> omega
  · have hs : b.start < b.cap := h3 (by omega)
    have he := ptrOf_eq b hs (by omega : n < b.cap)
    unfold size
    simp only
    rw [he]
    split_ifs <;> omega

theorem offsetOf_ptrOf (b : CB α) (hs : b.start < b.cap) {j : Nat} (hj : j < b.cap) :
    offsetOf b (ptrOf b j) = j := by
  unfold offsetOf
  rw [ptrOf_eq b hs hj]
  split_ifs with hw
  · rw [show b.start + j + b.cap - b.start = j + b.cap by omega, Nat.add_mod_right,
      Nat.mod_eq_of_lt hj]
  · rw [show b.start + j - b.cap + b.cap - b.start = j by omega, Nat.mod_eq_of_lt hj]

theorem offsetOf_lt (b : CB α) (hc : 0 < b.cap) (i : Nat) : offsetOf b i < b.cap :=
  Nat.mod_lt _ hc

theorem ptrOf_offsetOf (b : CB α) (hs : b.start < b.cap) {i : Nat} (hi : i < b.cap) :
    ptrOf b (offsetOf b i) = i := by
  have ho : offsetOf b i < b.cap := offsetOf_lt b (by omega) i
  rw [ptrOf_eq b hs ho]
  unfold offsetOf
  rw [mod_two_cases (by omega)]
  split_ifs <;> omega

theorem getD_eq_default [Inhabited α] (l : List α) {i : Nat} (hi : l.length ≤ i) :
    l.getD i default = default := by
  rw [List.getD_eq_getElem?_getD, List.getElem?_eq_none (by omega), Option.getD_none]

theorem getD_set_self [Inhabited α] (l : List α) (p : Nat) (v : α) (hp : p < l.length) :
    (l.set p v).getD p default = v := by
  rw [List.getD_eq_getElem?_getD, List.getElem?_set_self hp]
  rfl

theorem getD_set_ne [Inhabited α] (l : List α) {p i : Nat} (v : α) (hne : p ≠ i) :
    (l.set p v).getD i default = l.getD i default := by
  rw [List.getD_eq_getElem?_getD, List.getElem?_set_ne hne, ← List.getD_eq_getElem?_getD]

theorem logical_length [Inhabited α] (b : CB α) : (logical b).length = size b := by
  simp [logical]

theorem logical_getD [Inhabited α] (b : CB α) {j : Nat} (hj : j < size b) :
    (logical b).getD j default = b.data.getD ((b.start + j) % b.cap) default := by
  unfold logical
  rw [List.getD_eq_getElem?_getD, List.getElem?_map, List.getElem?_range hj]
  rfl

theorem map_getD_range [Inhabited α] (l : List α) :
    (List.range l.length).map (fun j => l.getD j default) = l := by
  apply List.ext_getElem
  · simp
  · intro i h1 h2
    simp [List.getD_eq_getElem?_getD, List.getElem?_eq_getElem h2]

theorem itSubOff_zero (b : CB α) (p : Nat) : itSubOff b p 0 = p := by
  unfold itSubOff
  rw [if_pos rfl]

/-- `end() - _n` (i.e. `operator-=` on the `end()` cursor) lands on the
offset of logical position `size - k`, for `0 < k < size`. -/
theorem itSubOff_finish (b : CB α) (h : Valid b) {k : Nat} (hk0 : 0 < k) (hk : k < size b) :
    itSubOff b b.finish k = ptrOf b (size b - k) := by
  obtain ⟨-, h1, h2, h3⟩ := h
  have hsz : size b ≤ b.cap := size_le_cap b h1 h2
  have hc : 0 < b.cap := by omega
  have hs : b.start < b.cap := h3 hc
  have hr : k % size b = k := Nat.mod_eq_of_lt hk
  have htgt := ptrOf_eq b hs (show size b - k < b.cap by omega)
  simp only [itSubOff, if_neg (show ¬ k = 0 by omega), hr, htgt]
  rcases size_spec b with ⟨c1, c2, c3⟩ | ⟨c1, c2, c3⟩ | ⟨c1, c2⟩ <;>
    split_ifs <;> omega

/-- `end() - size()` (as in `_erase_ending(size())`): the cursor comes back
to `finish` itself except on a full buffer with nonzero front offset, where
it lands on `start`. -/
theorem itSubOff_finish_size (b : CB α) (h : Valid b) (hpos : 0 < size b) :
    itSubOff b b.finish (size b) =
      if b.finish = b.cap ∧ b.start ≠ 0 then b.start else b.finish := by
  obtain ⟨-, h1, h2, h3⟩ := h
  have hsz : size b ≤ b.cap := size_le_cap b h1 h2
  have hc : 0 < b.cap := by omega
  have hs : b.start < b.cap := h3 hc
  have hr : size b % size b = 0 := Nat.mod_self _
  simp only [itSubOff, if_neg (show ¬ size b = 0 by omega), hr]
  rcases size_spec b with ⟨c1, c2, c3⟩ | ⟨c1, c2, c3⟩ | ⟨c1, c2⟩ <;>
    split_ifs <;> omega

/-- C3 (amended): cursor subtraction follows the source's three-branch
wrap rule, and `end() - begin()` equals `size()` for every buffer that is
not full.  On a full buffer the sentinel makes the no-wrap branch apply
(`start ≤ finish = end_of_storage`), so `end() - begin()` is
`capacity − front offset`, which equals `size()` only when the front sits
at `start_of_storage`. -/
theorem c3_itSub_end_begin (b : CB α) (h : Valid b) :
    (b.finish ≠ b.cap → itSub b (endPtr b) (beginPtr b) = (size b : Int)) ∧
    (b.finish = b.cap → itSub b (endPtr b) (beginPtr b) = (b.cap : Int) - (b.start : Int)) := by
  obtain ⟨-, h1, h2, h3⟩ := h
  unfold itSub endPtr beginPtr
  constructor
  · intro hf
    rcases size_spec b with ⟨c1, c2, c3⟩ | ⟨c1, c2, c3⟩ | ⟨c1, c2⟩
    · rw [if_pos (Or.inl c1), c3]
      omega
    · rw [if_neg (by omega), if_pos (by omega), c3]
      omega
    · exact absurd c1 hf
  · intro hf
    rw [if_pos (Or.inl (by omega))]
    omega

theorem c3_itSub_end_begin_witness :
    (exPart.finish ≠ exPart.cap →
      itSub exPart (endPtr exPart) (beginPtr exPart) = (size exPart : Int)) ∧
    (exPart.finish = exPart.cap →
      itSub exPart (endPtr exPart) (beginPtr exPart) = (exPart.cap : Int) - (exPart.start : Int)) :=
  c3_itSub_end_begin exPart (by decide)

/-- C7 (amended): `at(k)` performs no bounds check and never reports a
range failure: on every non-empty buffer it returns the element at logical
position `k % size()` — in particular the element at position `k` whenever
`k < size()`.  (On an empty buffer the source computes `k % 0`, undefined
behavior, which the non-emptiness hypothesis excludes.) -/
theorem c7_at_mod [Inhabited α] (b : CB α) (h : Valid b) (hne : size b ≠ 0) (k : Nat) :
    atIdx b k = (logical b).getD (k % size b) default := by
  have hsz : size b ≤ b.cap := size_le_cap b h.2.1 h.2.2.1
  have hc : 0 < b.cap := by omega
  have hs : b.start < b.cap := h.2.2.2 hc
  have hoff : k % size b < size b := Nat.mod_lt _ (by omega)
  rw [logical_getD b hoff]
  simp only [atIdx]
  rw [mod_two_cases (show b.start + k % size b < 2 * b.cap by omega)]
  split_ifs <;> first | rfl | omega

theorem c7_at_mod_witness :
    atIdx ex121 5 = (logical ex121).getD (5 % size ex121) default :=
  c7_at_mod ex121 (by decide) (by decide) 5

/-- C6 (amended): for every buffer and every `n ≤ size()` with `n > 0`,
both `resize(n)` and `resize(n, value)` shrink the buffer to size exactly
`n`, keeping capacity, front marker and the first `n` elements of the
logical sequence.  For `n = 0` the value-free overload is a no-op (its
shrink branch is guarded by `else if (_new_size)`), and the filled overload
is also a no-op — its `_erase_ending(size())` reduces the cursor offset
modulo `size()` to zero — except on a full buffer with nonzero front
offset, where the sentinel handling of `operator-=` lands the new `finish`
on `start` and the buffer is emptied. -/
theorem c6_resize_shrink [Inhabited α] (M n : Nat) (b : CB α) (v : α) (hV : Valid b)
    (hn : n ≤ size b) (hM : n ≤ M) :
    (0 < n → ∃ b1, resize M b n = .ok b1 ∧ size b1 = n ∧ capacity b1 = capacity b ∧
       b1.start = b.start ∧ logical b1 = (logical b).take n) ∧
    (0 < n → ∃ b1, resizeFill M b n v = .ok b1 ∧ size b1 = n ∧ capacity b1 = capacity b ∧
       b1.start = b.start ∧ logical b1 = (logical b).take n) ∧
    resize M b 0 = .ok b ∧
    resizeFill M b 0 v =
      .ok (if b.finish = b.cap ∧ b.start ≠ 0 then { b with finish := b.start } else b) := by
  have hsz : size b ≤ b.cap := size_le_cap b hV.2.1 hV.2.2.1
  have key : ∀ m : Nat, 0 < m → m ≤ size b →
      eraseEnding b (size b - m) = { b with finish := ptrOf b m } := by
    intro m hm0 hm
    unfold eraseEnding
    rcases eq_or_lt_of_le hm with he | hlt
    · rw [he, Nat.sub_self, itSubOff_zero, ← finish_eq_ptrOf b hV]
    · rw [itSubOff_finish b hV (by omega) (by omega),
        show size b - (size b - m) = m by omega]
  have hlogE : ∀ m : Nat, 0 < m → m ≤ size b →
      logical { b with finish := ptrOf b m } = (logical b).take m := by
    intro m hm0 hm
    have h1 : logical { b with finish := ptrOf b m } =
        (List.range m).map (fun j => b.data.getD ((b.start + j) % b.cap) default) := by
      unfold logical
      rw [size_finish_ptrOf b hV (by omega)]
    rw [h1]
    unfold logical
    rw [← List.map_take, List.take_range]
    congr 1
    exact congrArg List.range (inf_eq_left.mpr hm).symm
  refine ⟨?_, ?_, ?_, ?_⟩
  · intro hn0
    refine ⟨{ b with finish := ptrOf b n }, ?_, size_finish_ptrOf b hV (by omega), rfl, rfl,
      hlogE n hn0 hn⟩
    unfold resize
    rw [if_neg (show ¬ M < n by omega), if_neg (show ¬ size b < n by omega),
      if_pos (show n ≠ 0 by omega), key n hn0 hn]
  · intro hn0
    refine ⟨{ b with finish := ptrOf b n }, ?_, size_finish_ptrOf b hV (by omega), rfl, rfl,
      hlogE n hn0 hn⟩
    unfold resizeFill
    rw [if_neg (show ¬ M < n by omega), if_neg (show ¬ size b < n by omega), key n hn0 hn]
  · unfold resize
    rw [if_neg (show ¬ M < 0 by omega), if_neg (show ¬ size b < 0 by omega),
      if_neg (show ¬ (0 : Nat) ≠ 0 by omega)]
  · unfold resizeFill
    rw [if_neg (show ¬ M < 0 by omega), if_neg (show ¬ size b < 0 by omega)]
    by_cases hzero : size b = 0
    · have hcond : ¬ (b.finish = b.cap ∧ b.start ≠ 0) := by
        rintro ⟨hfc, hs0⟩
        rcases size_spec b with ⟨c1, c2, c3⟩ | ⟨c1, c2, c3⟩ | ⟨c1, c2⟩
        · exact c2 hfc
        · exact c2 hfc
        · have := hV.2.1
          omega
      rw [if_neg hcond]
      unfold eraseEnding
      rw [Nat.sub_zero, hzero, itSubOff_zero]
    · unfold eraseEnding
      rw [Nat.sub_zero, itSubOff_finish_size b hV (by omega)]
      split_ifs with hcond
      · rfl
      · rfl

theorem c6_resize_shrink_witness :
    (0 < 2 → ∃ b1, resize 10 ex121 2 = .ok b1 ∧ size b1 = 2 ∧
       capacity b1 = capacity ex121 ∧ b1.start = ex121.start ∧
       logical b1 = (logical ex121).take 2) ∧
    (0 < 2 → ∃ b1, resizeFill 10 ex121 2 7 = .ok b1 ∧ size b1 = 2 ∧
       capacity b1 = capacity ex121 ∧ b1.start = ex121.start ∧
       logical b1 = (logical ex121).take 2) ∧
    resize 10 ex121 0 = .ok ex121 ∧
    resizeFill 10 ex121 0 7 =
      .ok (if ex121.finish = ex121.cap ∧ ex121.start ≠ 0 then
            { ex121 with finish := ex121.start } else ex121) :=
  c6_resize_shrink 10 2 ex121 7 (by decide) (by decide) (by decide)

theorem size_mk (c st fi : Nat) (d : List α) :
    size (⟨c, st, fi, d⟩ : CB α) =
      if st ≤ fi ∧ fi ≠ c then fi - st
      else if fi ≠ c then fi + (c - st) else c := rfl

theorem logical_mk [Inhabited α] (c st fi : Nat) (d : List α) :
    logical (⟨c, st, fi, d⟩ : CB α) =
      (List.range (size (⟨c, st, fi, d⟩ : CB α))).map
        (fun j => d.getD ((st + j) % c) default) := rfl

/-- The relocation walk `begin() → end()` enumerates the logical suffix
starting at position `j`, provided enough fuel. -/
theorem walkUntil_spec [Inhabited α] (b : CB α) (h : Valid b) :
    ∀ (fuel j : Nat), j ≤ size b → size b - j < fuel →
      walkUntil b (ptrOf b j) b.finish fuel =
        (List.range (size b - j)).map
          (fun i => b.data.getD ((b.start + (j + i)) % b.cap) default) := by
  have hsz : size b ≤ b.cap := size_le_cap b h.2.1 h.2.2.1
  intro fuel
  induction fuel with
  | zero => omega
  | succ f ih =>
    intro j hj hf
    by_cases hstop : ptrOf b j = b.finish
    · have hje : j = size b := by
        rw [finish_eq_ptrOf b h] at hstop
        exact ptrOf_inj b h (by omega) (by omega) hstop
      subst hje
      simp [walkUntil, hstop]
    · have hjlt : j < size b := by
        rcases eq_or_lt_of_le hj with he | hlt
        · exact absurd (he ▸ (finish_eq_ptrOf b h).symm) hstop
        · exact hlt
      have hstep : itNext b (ptrOf b j) = ptrOf b (j + 1) := itNext_ptrOf b h (by omega)
      have hcons : walkUntil b (ptrOf b j) b.finish (f + 1) =
          b.data.getD (ptrOf b j) default :: walkUntil b (ptrOf b (j + 1)) b.finish f := by
        rw [walkUntil, if_neg hstop, hstep]
      rw [hcons, ih (j + 1) (by omega) (by omega),
        show size b - j = (size b - (j + 1)) + 1 by omega,
        List.range_succ_eq_map, List.map_cons, List.map_map]
      have hs : b.start < b.cap := h.2.2.2 (by omega)
      have hptr : ptrOf b j = (b.start + j) % b.cap := by
        unfold ptrOf
        rw [if_neg (by omega)]
      refine congrArg₂ _ ?_ ?_
      · rw [hptr, Nat.add_zero]
      · refine List.map_congr_left (fun i _ => ?_)
        simp only [Function.comp]
        rw [show j + (Nat.succ i) = j + 1 + i by omega]

theorem start_eq_ptrOf_zero (b : CB α) (h : Valid b) : b.start = ptrOf b 0 := by
  by_cases hc : b.cap = 0
  · have := h.2.1
    unfold ptrOf
    rw [if_pos hc.symm]
    omega
  · unfold ptrOf
    rw [if_neg (by omega), Nat.add_zero, Nat.mod_eq_of_lt (h.2.2.2 (by omega))]

/-- The relocation of `begin()..end()` copies exactly the logical content. -/
theorem walk_eq_logical [Inhabited α] (b : CB α) (h : Valid b) :
    walkUntil b b.start b.finish (b.cap + 1) = logical b := by
  have hsz : size b ≤ b.cap := size_le_cap b h.2.1 h.2.2.1
  rw [start_eq_ptrOf_zero b h, walkUntil_spec b h (b.cap + 1) 0 (by omega) (by omega)]
  unfold logical
  simp

/-- C8: requesting more than `max_size()` makes `reserve` and `resize`
throw `length_error` before touching any state; `reserve(n)` with
`n ≤ capacity()` returns without any change; and `reserve(n)` with
`capacity() < n ≤ max_size()` reallocates to capacity exactly `n`,
preserving the size and the logical element order. -/
theorem c8_reserve_spec [Inhabited α] (M n : Nat) (b : CB α) (hV : Valid b) :
    (M < n → reserve M b n = .error () ∧ resize M b n = .error ()) ∧
    (n ≤ capacity b → n ≤ M → reserve M b n = .ok b) ∧
    (capacity b < n → n ≤ M →
      ∃ b1, reserve M b n = .ok b1 ∧ capacity b1 = n ∧ size b1 = size b ∧
        logical b1 = logical b ∧ Valid b1) := by
  have hsz : size b ≤ b.cap := size_le_cap b hV.2.1 hV.2.2.1
  refine ⟨?_, ?_, ?_⟩
  · intro hlt
    constructor
    · unfold reserve
      rw [if_pos hlt]
    · unfold resize
      rw [if_pos hlt]
  · intro hle hM
    unfold reserve
    rw [if_neg (by omega), if_neg (by unfold capacity at hle; omega)]
  · intro hlt hM
    replace hlt : b.cap < n := hlt
    have hb1 : reserve M b n = .ok (reallocDefault b n) := by
      unfold reserve
      rw [if_neg (by omega), if_pos (by omega)]
    have hre : reallocDefault b n =
        (⟨n, 0, size b, logical b ++ List.replicate (n - size b) default⟩ : CB α) := by
      unfold reallocDefault
      rw [if_pos (by omega), walk_eq_logical b hV]
    have hsize1 :
        size (⟨n, 0, size b, logical b ++ List.replicate (n - size b) default⟩ : CB α) =
          size b := by
      rw [size_mk, if_pos ⟨Nat.zero_le _, by omega⟩, Nat.sub_zero]
    refine ⟨reallocDefault b n, hb1, by rw [hre]; rfl, by rw [hre]; exact hsize1, ?_, ?_⟩
    · rw [hre, logical_mk, hsize1]
      apply List.ext_getElem
      · simp [logical_length]
      · intro i h1 h2
        have hilt : i < size b := by simpa using h1
        simp only [List.getElem_map, List.getElem_range]
        rw [Nat.zero_add, Nat.mod_eq_of_lt (by omega), List.getD_eq_getElem?_getD,
          List.getElem?_append, if_pos (by rw [logical_length]; omega),
          List.getElem?_eq_getElem (by rw [logical_length]; omega)]
        rfl
    · rw [hre]
      refine ⟨?_, ?_, ?_, ?_⟩
      · show (logical b ++ List.replicate (n - size b) default).length = n
        rw [List.length_append, logical_length, List.length_replicate]
        omega
      · show (0 : Nat) ≤ n
        omega
      · show size b ≤ n
        omega
      · intro _
        show (0 : Nat) < n
        omega

theorem c8_reserve_spec_witness :
    (12 < 5 → reserve 12 exFull1 5 = .error () ∧ resize 12 exFull1 5 = .error ()) ∧
    (5 ≤ capacity exFull1 → 5 ≤ 12 → reserve 12 exFull1 5 = .ok exFull1) ∧
    (capacity exFull1 < 5 → 5 ≤ 12 →
      ∃ b1, reserve 12 exFull1 5 = .ok b1 ∧ capacity b1 = 5 ∧ size b1 = size exFull1 ∧
        logical b1 = logical exFull1 ∧ Valid b1) :=
  c8_reserve_spec 12 5 exFull1 (by decide)

theorem getD_drop [Inhabited α] (l : List α) (m i : Nat) :
    (l.drop m).getD i default = l.getD (m + i) default := by
  rw [List.getD_eq_getElem?_getD, List.getElem?_drop, List.getD_eq_getElem?_getD]

theorem assignLoop_length [Inhabited α] (b : CB α) :
    ∀ (src : List α) (p : Nat) (d : List α), (assignLoop b src p d).1.length = d.length := by
  intro src
  induction src with
  | nil => intro p d; rfl
  | cons v rest ih =>
    intro p d
    by_cases hp : p = b.finish
    · simp [assignLoop, hp]
    · simp [assignLoop, hp, ih, List.length_set]

/-- One `assign` copy loop starting at logical position `j`: it overwrites
the logical positions `j, j+1, …` with the source elements, stopping when
either the source or the window is exhausted, and returns the unconsumed
source suffix. -/
theorem assignLoop_spec [Inhabited α] (b : CB α) (h : Valid b) :
    ∀ (src : List α) (j : Nat) (d : List α), j ≤ size b → d.length = b.cap →
      (assignLoop b src (ptrOf b j) d).2 = src.drop (size b - j) ∧
      ∀ i : Nat,
        (assignLoop b src (ptrOf b j) d).1.getD i default =
          if j ≤ offsetOf b i ∧ offsetOf b i < j + min src.length (size b - j) ∧ i < b.cap then
            src.getD (offsetOf b i - j) default
          else d.getD i default := by
  have hsz : size b ≤ b.cap := size_le_cap b h.2.1 h.2.2.1
  intro src
  induction src with
  | nil =>
    intro j d hj hd
    refine ⟨by simp [assignLoop], fun i => ?_⟩
    rw [if_neg (by simp only [List.length_nil]; omega)]
    simp [assignLoop]
  | cons v rest ih =>
    intro j d hj hd
    by_cases hstop : ptrOf b j = b.finish
    · have hje : j = size b := by
        rw [finish_eq_ptrOf b h] at hstop
        exact ptrOf_inj b h (by omega) (by omega) hstop
      have hred : assignLoop b (v :: rest) (ptrOf b j) d = (d, v :: rest) := by
        simp only [assignLoop, if_pos hstop]
      rw [hred]
      refine ⟨by rw [hje, Nat.sub_self, List.drop_zero], fun i => ?_⟩
      rw [if_neg (by omega)]
    · have hjlt : j < size b := by
        rcases eq_or_lt_of_le hj with he | hlt
        · exact absurd (he ▸ (finish_eq_ptrOf b h).symm) hstop
        · exact hlt
      have hs : b.start < b.cap := h.2.2.2 (by omega)
      have hstep := itNext_ptrOf b h (show j < b.cap by omega)
      have hred : assignLoop b (v :: rest) (ptrOf b j) d =
          assignLoop b rest (ptrOf b (j + 1)) (d.set (ptrOf b j) v) := by
        simp only [assignLoop, if_neg hstop, hstep]
      obtain ⟨ih2, ih1⟩ := ih (j + 1) (d.set (ptrOf b j) v) (by omega)
        (by rw [List.length_set]; exact hd)
      rw [hred]
      refine ⟨?_, fun i => ?_⟩
      · rw [ih2, show size b - j = (size b - (j + 1)) + 1 by omega, List.drop_succ_cons]
      · rw [ih1 i]
        simp only [List.length_cons]
        by_cases hic : i < b.cap
        · by_cases hoj : offsetOf b i = j
          · have hieq : ptrOf b j = i := by
              rw [← hoj]
              exact ptrOf_offsetOf b hs hic
            rw [if_neg (by omega), hieq,
              getD_set_self _ _ _ (by rw [hd]; exact hic),
              if_pos (⟨by omega, by omega, hic⟩ :
                j ≤ offsetOf b i ∧
                offsetOf b i < j + min (rest.length + 1) (size b - j) ∧ i < b.cap),
              hoj, Nat.sub_self, List.getD_cons_zero]
          · by_cases hrange :
                j + 1 ≤ offsetOf b i ∧
                offsetOf b i < j + 1 + min rest.length (size b - (j + 1))
            · rw [if_pos ⟨hrange.1, hrange.2, hic⟩,
                if_pos (⟨by omega, by omega, hic⟩ :
                  j ≤ offsetOf b i ∧
                  offsetOf b i < j + min (rest.length + 1) (size b - j) ∧ i < b.cap),
                show offsetOf b i - j = (offsetOf b i - (j + 1)) + 1 by omega,
                List.getD_cons_succ]
            · rw [if_neg (by omega), if_neg (by omega)]
              refine getD_set_ne d v (fun he => hoj ?_)
              rw [← he]
              exact offsetOf_ptrOf b hs (by omega)
        · rw [if_neg (by omega), if_neg (by omega),
            getD_eq_default _ (by rw [List.length_set, hd]; omega),
            getD_eq_default _ (by rw [hd]; omega)]

theorem list_eq_of_getD [Inhabited α] (l1 l2 : List α) (hlen : l1.length = l2.length)
    (h : ∀ i, i < l1.length → l1.getD i default = l2.getD i default) : l1 = l2 := by
  apply List.ext_getElem hlen
  intro i h1 h2
  have hi := h i h1
  rwa [List.getD_eq_getElem?_getD, List.getD_eq_getElem?_getD,
    List.getElem?_eq_getElem h1, List.getElem?_eq_getElem h2] at hi

theorem getD_rotate [Inhabited α] (l : List α) (m i : Nat) (hi : i < l.length) :
    (l.rotate m).getD i default = l.getD ((i + m) % l.length) default := by
  have h1 : i < (l.rotate m).length := by rw [List.length_rotate]; exact hi
  rw [List.getD_eq_getElem?_getD, List.getElem?_eq_getElem h1, List.getElem_rotate l m i h1,
    List.getD_eq_getElem?_getD, List.getElem?_eq_getElem (Nat.mod_lt _ (by omega))]

/-- C4 (amended): for every non-empty buffer and every source strictly
longer than the buffer's current *size*, `assign` leaves all four markers
(hence size and capacity) unchanged and stores exactly the last `size()`
elements of the source, flowing through the ring: the logical sequence is
that block of `size()` trailing source elements rotated left by
`size() − len mod size()`.  When the buffer is full (`size() == capacity()`,
as in the spec's capacity-6 example assigned `1..9`) this is precisely the
last `capacity()` source values. -/
theorem c4_assign_overlong [Inhabited α] (b : CB α) (src : List α) (hV : Valid b)
    (hne : b.start ≠ b.finish) (hlen : size b < src.length) :
    (assign b src).start = b.start ∧ (assign b src).finish = b.finish ∧
    capacity (assign b src) = capacity b ∧ size (assign b src) = size b ∧
    logical (assign b src) =
      (src.drop (src.length - size b)).rotate (size b - src.length % size b) := by
  have spos : 0 < size b := size_pos_of_ne b hV hne
  have hsz : size b ≤ b.cap := size_le_cap b hV.2.1 hV.2.2.1
  have hs : b.start < b.cap := hV.2.2.2 (by omega)
  have hq1 : 1 ≤ src.length / size b := (Nat.one_le_div_iff spos).2 (by omega)
  obtain ⟨qq, hqq⟩ : ∃ qq, src.length / size b = qq + 1 := ⟨src.length / size b - 1, by omega⟩
  have hr : src.length % size b < size b := Nat.mod_lt _ spos
  have hn : src.length = qq * size b + size b + src.length % size b := by
    have h2 := Nat.div_add_mod src.length (size b)
    rw [hqq, Nat.mul_add, Nat.mul_one, Nat.mul_comm (size b) qq] at h2
    omega
  have hsa : size (assign b src) = size b := by
    unfold assign
    split_ifs <;> rfl
  have hseg : src.length / size b - 1 = qq := by omega
  have hD : (assign b src).data =
      (assignLoop b (assignLoop b (src.drop (qq * size b)) b.start b.data).2 b.start
        (assignLoop b (src.drop (qq * size b)) b.start b.data).1).1 := by
    unfold assign
    rw [if_neg hne]
    simp only
    rw [if_pos (show src.length / size b ≠ 0 by omega), hseg]
  have hp0 := start_eq_ptrOf_zero b hV
  rw [hp0] at hD
  have hseg1len : (src.drop (qq * size b)).length = size b + src.length % size b := by
    rw [List.length_drop]
    omega
  obtain ⟨h1rem, h1get⟩ :=
    assignLoop_spec b hV (src.drop (qq * size b)) 0 b.data (Nat.zero_le _) hV.1
  rw [Nat.sub_zero, List.drop_drop] at h1rem
  rw [h1rem] at hD
  have hremlen : (src.drop (qq * size b + size b)).length = src.length % size b := by
    rw [List.length_drop]
    omega
  obtain ⟨-, h2get⟩ :=
    assignLoop_spec b hV (src.drop (qq * size b + size b)) 0
      (assignLoop b (src.drop (qq * size b)) (ptrOf b 0) b.data).1 (Nat.zero_le _)
      (by rw [assignLoop_length]; exact hV.1)
  have hstart : (assign b src).start = b.start := by unfold assign; split_ifs <;> rfl
  have hfin : (assign b src).finish = b.finish := by unfold assign; split_ifs <;> rfl
  have hcap : (assign b src).cap = b.cap := by unfold assign; split_ifs <;> rfl
  refine ⟨hstart, hfin, by unfold capacity; exact hcap, hsa, ?_⟩
  have hdroplen : (src.drop (src.length - size b)).length = size b := by
    rw [List.length_drop]
    omega
  apply list_eq_of_getD
  · rw [logical_length, hsa, List.length_rotate, hdroplen]
  · intro i hilen
    rw [logical_length, hsa] at hilen
    have hpi : ptrOf b i = (b.start + i) % b.cap := by
      unfold ptrOf
      rw [if_neg (by omega)]
    have hplt : ptrOf b i < b.cap := ptrOf_lt b hs (by omega)
    have hoi : offsetOf b (ptrOf b i) = i := offsetOf_ptrOf b hs (by omega)
    rw [logical_getD _ (by rw [hsa]; exact hilen), hstart, hcap, hD, ← hpi, h2get (ptrOf b i),
      getD_rotate _ _ _ (by rw [hdroplen]; exact hilen), hdroplen,
      getD_drop]
    by_cases hir : i < src.length % size b
    · rw [if_pos (by rw [hoi, hremlen]; exact ⟨Nat.zero_le _, by omega, hplt⟩),
        hoi, Nat.sub_zero, getD_drop,
        show (i + (size b - src.length % size b)) % size b =
          i + size b - src.length % size b from by
            rw [mod_two_cases (by omega)]
            split_ifs <;> omega]
      rw [show src.length - size b + (i + size b - src.length % size b) =
        qq * size b + size b + i by omega]
    · rw [if_neg (by rw [hoi, hremlen]; omega),
        h1get (ptrOf b i),
        if_pos (by rw [hoi, hseg1len]; exact ⟨Nat.zero_le _, by omega, hplt⟩),
        hoi, Nat.sub_zero, getD_drop,
        show (i + (size b - src.length % size b)) % size b =
          i - src.length % size b from by
            rw [mod_two_cases (by omega)]
            split_ifs <;> omega]
      rw [getD_drop,
        show src.length - size b + (i - src.length % size b) = qq * size b + i by omega]

theorem c4_assign_overlong_witness :
    (assign exFull1 [1, 2, 3, 4, 5, 6, 7]).start = exFull1.start ∧
    (assign exFull1 [1, 2, 3, 4, 5, 6, 7]).finish = exFull1.finish ∧
    capacity (assign exFull1 [1, 2, 3, 4, 5, 6, 7]) = capacity exFull1 ∧
    size (assign exFull1 [1, 2, 3, 4, 5, 6, 7]) = size exFull1 ∧
    logical (assign exFull1 [1, 2, 3, 4, 5, 6, 7]) =
      (([1, 2, 3, 4, 5, 6, 7] : List Int).drop (7 - size exFull1)).rotate
        (size exFull1 - 7 % size exFull1) :=
  c4_assign_overlong exFull1 [1, 2, 3, 4, 5, 6, 7] (by decide) (by decide) (by decide)

-- ======================================================================
-- Claim theorems
-- ======================================================================

/-- C1: the claim states that `push_back` on a *non-full* buffer increases
the size by one, appends the value at the logical back and keeps the prior
elements.  The code violates this: on the reachable non-full state
`exMid` (capacity 3, size 1, `start = 1`, `finish = 2`, obtained from an
empty capacity-3 buffer by `push_back(10); push_back(20); pop_front()`),
`push_back(99)` increments `finish` onto the `end_of_storage` sentinel, so
the buffer reports size 3 (not 2), the new value lands in slot 0 instead of
slot 2, and the never-written slot 2 becomes a live element. -/
theorem c1_push_back_nonfull_bug :
    pop_front (push_back (push_back (⟨3, 0, 0, [0, 0, 0]⟩ : CB Int) 10) 20) = exMid ∧
    size exMid = 1 ∧ (exMid.finish = exMid.cap) = False ∧
    push_back exMid 99 = ⟨3, 1, 3, [99, 20, 0]⟩ ∧
    size (push_back exMid 99) = 3 := by
  refine ⟨by decide, by decide, by simp [exMid], by decide, by decide⟩

/-- C2: for every marker configuration inside the storage bounds (the
spec's own invariant domain: both markers within
`[start_of_storage, end_of_storage]`), the size computed from the
`(front, back)` encoding with the end-of-storage sentinel never exceeds
`end_of_storage - start_of_storage`, and a zero capacity forces size 0. -/
theorem c2_size_le_capacity (b : CB α) (h1 : b.start ≤ b.cap) (h2 : b.finish ≤ b.cap) :
    size b ≤ capacity b ∧ (capacity b = 0 → size b = 0) := by
  unfold size capacity
  split_ifs <;> omega

theorem c2_size_le_capacity_witness :
    size exFull1 ≤ capacity exFull1 ∧ (capacity exFull1 = 0 → size exFull1 = 0) :=
  c2_size_le_capacity exFull1 (by decide) (by decide)

/-- C3, counterexample: on the full buffer `exFull1` (capacity 3, front
offset 1, reachable as `{1,2,1}` followed by `push_back(0)`), `end() - begin()`
takes the first branch of the source's subtraction (`start <= finish` holds
since `finish` is the sentinel `end_of_storage`), giving `finish - start = 2`,
while `size()` is 3 — so `end() - begin() = size()` fails for a full buffer
with nonzero front offset. -/
theorem c3_counterexample :
    Valid exFull1 ∧
    itSub exFull1 (endPtr exFull1) (beginPtr exFull1) = 2 ∧
    size exFull1 = 3 := by
  refine ⟨by decide, by decide, by decide⟩

/-- C4, counterexample: `exPart` is non-empty with size 2 and capacity 3;
the source `[1,2,3,4]` is strictly longer than the capacity, yet `assign`
stores only the last `size() = 2` source elements (`3, 4`) — the value `2`
from the claimed "last capacity elements" `{2,3,4}` is nowhere in the
buffer, whose size stays 2. -/
theorem c4_counterexample :
    size exPart = 2 ∧ capacity exPart = 3 ∧
    assign exPart [1, 2, 3, 4] = ⟨3, 0, 2, [3, 4, 0]⟩ ∧
    logical (assign exPart [1, 2, 3, 4]) = [3, 4] := by
  refine ⟨by decide, by decide, by decide, by decide⟩

/-- C5: the claim states that `resize(n)` leaves `size() == n` whenever
`size() < n <= max_size()`.  The code violates this in the reallocating
branch of the value-free overload: on `exGrow` (capacity 2, size 1),
`resize(5)` calls `_reallocate_storage_default(5)`, which default-constructs
the five-slot block's tail but then sets `finish` to the relocation result
`new_start + size()`, so the buffer ends with capacity 5 and size still 1.
The filled overload `resize(5, 9)` sets `finish = end_of_storage` and does
reach size 5. -/
theorem c5_resize_realloc_default_bug :
    resize 1000 exGrow 5 = .ok ⟨5, 0, 1, [7, 0, 0, 0, 0]⟩ ∧
    size (⟨5, 0, 1, [7, 0, 0, 0, 0]⟩ : CB Int) = 1 ∧
    resizeFill 1000 exGrow 5 9 = .ok ⟨5, 0, 5, [7, 9, 9, 9, 9]⟩ ∧
    size (⟨5, 0, 5, [7, 9, 9, 9, 9]⟩ : CB Int) = 5 := by
  refine ⟨by rfl, by decide, by rfl, by decide⟩

/-- C6, counterexample: on the non-empty buffer `ex121` (size 3),
`resize(0)` hits the guarded shrink branch `else if (_new_size)` whose
condition is false for 0, so nothing happens: the size stays 3 instead of
becoming 0 as the claim ("including n == 0") requires. -/
theorem c6_counterexample :
    resize 1000 ex121 0 = .ok ex121 ∧ size ex121 = 3 := by
  refine ⟨by rfl, by decide⟩

/-- C7, counterexample: `at()` contains no bounds check and no throw: on
`ex121` (size 3) the out-of-bounds index 5 does not produce a range
failure; the accessor reduces the index modulo `size()` and returns the
element at logical position `5 % 3 = 2`, exactly as `at(2)` does. -/
theorem c7_counterexample :
    size ex121 = 3 ∧
    atIdx ex121 5 = 1 ∧
    atIdx ex121 5 = atIdx ex121 2 := by
  refine ⟨by decide, by decide, by decide⟩

/-- C9: the claim states that `pop_front` on every non-empty buffer
decreases the size by one.  The code violates this on a full buffer: it
advances `start` but never clears the `finish == end_of_storage` "full"
sentinel, so on `ex121` (size 3 = capacity) the size after `pop_front()`
is still 3. -/
theorem c9_pop_front_full_bug :
    size ex121 = 3 ∧
    pop_front ex121 = ⟨3, 1, 3, [1, 2, 1]⟩ ∧
    size (pop_front ex121) = 3 := by
  refine ⟨by decide, by decide, by decide⟩

/-- C10: the claim states that `cend()` marks the same logical position as
`end()`.  The code of `cend()` returns `const_iterator(start, *this)` — the
same iterator as `cbegin()` — so on the non-empty buffer `ex121` the
`cend()` cursor sits at offset 0 (the front) while `end()` sits at the
sentinel offset 3; traversing `cbegin()..cend()` visits 0 elements, not
`size()`. -/
theorem c10_cend_is_cbegin_bug :
    cendPtr ex121 = cbeginPtr ex121 ∧
    cendPtr ex121 = 0 ∧ endPtr ex121 = 3 ∧
    cendPtr ex121 ≠ endPtr ex121 := by
  refine ⟨by decide, by decide, by decide, by decide⟩

end CircBuf
